import Mathlib

/-!
# Verification of the Metrics store-and-forward pipeline

Shallow embedding of the repository's core: the directory-backed durable
queue, the producers (`pc_metrics.py`, `esp32_metrics.py`) and the uploader
(`uploader_queue.py`).

Modelling conventions:
* The queue directory is an association list from filename to file content
  (`FS`).  `fsRead`/`fsWrite`/`fsErase` model `open(...).read`, `open(p, "w")`
  followed by a full write, and `os.remove`.  `os.remove` on a missing file
  raises `FileNotFoundError`, modelled by `fsRemove` returning `Except.error`.
* File contents are either a completely serialized record (`FileContent.record`,
  the result of `json.dump`) or bytes that `json.load` rejects
  (`FileContent.corrupt`).  The uploader treats payload fields opaquely, so
  records carry their fields abstractly; numeric fields are `Nat` because no
  claim inspects their arithmetic.
* The network (`requests.post`) is an oracle `Net` mapping an endpoint URL and
  a posted record to either an HTTP status code or a raised
  timeout/connection error (`NetResult.netError`).
* Python exception structure is preserved: `send_metrics` catches every
  per-entry error and returns `False`; `process_queue` wraps the whole loop in
  one `try/except`, so an uncaught error inside the loop body (only `os.remove`
  can raise there) aborts the remainder of the cycle.
-/

/-- A metric record, as built by the producers.  `pc` mirrors
`MetricsClient.get_system_metrics`, `esp` mirrors the payload built in
`ESP32MetricsCollector.save_metrics`.  The temperature is kept as the captured
digit string of the regex group, since no claim depends on float semantics. -/
inductive Metrics where
  | pc (device_name : String) (num_threads num_processes ram_usage_mb timestamp : Nat)
  | esp (device_name : String) (temperature : String) (timestamp : Nat)
deriving DecidableEq, Repr

/-- Content of one queue file: a fully serialized record, or bytes on which
`json.load` raises (truncated or otherwise malformed JSON). -/
inductive FileContent where
  | record (m : Metrics)
  | corrupt (raw : String)
deriving DecidableEq, Repr

/-- The queue directory: filenames paired with file contents. -/
abbrev FS := List (String × FileContent)

/-- Reading a file: `none` when the file does not exist (`open` raises). -/
def fsRead : FS → String → Option FileContent
  | [], _ => none
  | (k, v) :: t, n => if k = n then some v else fsRead t n

/-- The filenames present in the directory (`os.listdir`, order unspecified). -/
def fsNames (fs : FS) : List String := fs.map Prod.fst

/-- Delete one file (the effect of a successful `os.remove`). -/
def fsErase : FS → String → FS
  | [], _ => []
  | (k, v) :: t, n => if k = n then t else (k, v) :: fsErase t n

/-- `open(name, "w")` followed by writing `c`: creates or truncates-and-replaces. -/
def fsWrite (fs : FS) (n : String) (c : FileContent) : FS :=
  (n, c) :: fsErase fs n

/-- `os.remove(name)`: deletes the file, raising `FileNotFoundError`
(`Except.error ()`) when it does not exist. -/
def fsRemove (fs : FS) (n : String) : Except Unit FS :=
  match fsRead fs n with
  | some _ => .ok (fsErase fs n)
  | none => .error ()

/-- Result of `requests.post`: an HTTP response, or a raised
timeout/connection error. -/
inductive NetResult where
  | status (code : Nat)
  | netError
deriving DecidableEq, Repr

/-- Network oracle: what `requests.post(endpoint, json=m, ...)` does. -/
abbrev Net := String → Metrics → NetResult

/-- Origin of a queue entry, as the uploader classifies it. -/
inductive Origin where
  | pc
  | esp32
deriving DecidableEq, Repr

/-- The `server_endpoints` dict built in `MetricsUploader.__init__` from
`config['server']`. -/
structure Config where
  pc_metrics_endpoint : String
  esp32_metrics_endpoint : String

/-- `self.server_endpoints[...]` lookup. -/
def endpointFor (cfg : Config) : Origin → String
  | .pc => cfg.pc_metrics_endpoint
  | .esp32 => cfg.esp32_metrics_endpoint

/-- Is `needle` an initial segment of `hay`? (helper for Python's `in`). -/
def listIsPref : List Char → List Char → Bool
  | [], _ => true
  | _ :: _, [] => false
  | a :: as, b :: bs => a == b && listIsPref as bs

/-- Does `needle` occur contiguously anywhere in `hay`?  This is Python's
substring test `needle in hay`. -/
def listHasSub (needle : List Char) : List Char → Bool
  | [] => listIsPref needle []
  | c :: t => listIsPref needle (c :: t) || listHasSub needle t

/-- Python's `sub in hay` on strings. -/
def containsSub (hay sub : String) : Bool := listHasSub sub.data hay.data

/-- The endpoint-selection chain of `MetricsUploader.process_queue`:
`if 'pc_metrics' in filename: ... elif 'esp32_metrics' in filename: ...
else: warn and continue`. -/
def classify (filename : String) : Option Origin :=
  if containsSub filename "pc_metrics" then some .pc
  else if containsSub filename "esp32_metrics" then some .esp32
  else none

/-- `MetricsUploader.send_metrics`: read the file, `json.load` it, POST it,
and report `True` exactly on HTTP 200/201.  Every failure inside — missing
file, malformed JSON, request exception, non-2xx status — is caught by the
method's own `try/except` and yields `False`. -/
def send_metrics (net : Net) (fs : FS) (file_path endpoint : String) : Bool :=
  match fsRead fs file_path with
  | none => false
  | some (.corrupt _) => false
  | some (.record m) =>
    match net endpoint m with
    | .netError => false
    | .status c => c == 200 || c == 201

/-- The body of `MetricsUploader.process_queue` after `sorted(os.listdir(...))`:
iterate over the filenames, classify, attempt delivery, and `os.remove` on
success.  The whole loop sits inside a single `try/except`, so if `os.remove`
raises, the remaining entries of the cycle are abandoned (the error branch).
Returns the final directory state and the trace of filenames whose per-entry
handling was reached. -/
def processEntries (cfg : Config) (net : Net) : FS → List String → FS × List String
  | fs, [] => (fs, [])
  | fs, f :: rest =>
    match classify f with
    | none =>
      let r := processEntries cfg net fs rest
      (r.1, f :: r.2)
    | some o =>
      if send_metrics net fs f (endpointFor cfg o) then
        match fsRemove fs f with
        | .ok fs1 =>
          let r := processEntries cfg net fs1 rest
          (r.1, f :: r.2)
        | .error _ => (fs, [f])
      else
        let r := processEntries cfg net fs rest
        (r.1, f :: r.2)

/-- Lexicographic comparison of character lists by code point, the order
Python uses to compare strings: compare heads, on a tie continue. -/
def listLeb : List Char → List Char → Bool
  | [], _ => true
  | _ :: _, [] => false
  | a :: as, b :: bs => if a < b then true else if a = b then listLeb as bs else false

/-- Python's `<=` on strings (lexicographic by code point). -/
def strLe (a b : String) : Prop := listLeb a.data b.data = true

instance : DecidableRel strLe :=
  fun a b => inferInstanceAs (Decidable (listLeb a.data b.data = true))

/-- Sorting of the directory listing (`sorted(...)`, lexicographic on names). -/
def sortNames (l : List String) : List String := List.insertionSort strLe l

/-- `ListPending`: the entries present at call time, sorted by name. -/
def listPending (fs : FS) : List String := sortNames (fsNames fs)

/-- One queue-processing cycle (`MetricsUploader.process_queue`). -/
def process_queue (cfg : Config) (net : Net) (fs : FS) : FS × List String :=
  processEntries cfg net fs (listPending fs)

/-- The delivery of entry `n` is confirmed in this cycle: the entry is
classified, its content parses as a record, and the POST to the classified
endpoint returns HTTP 200 or 201. -/
def deliveredOk (cfg : Config) (net : Net) (fs : FS) (n : String) : Prop :=
  ∃ o m c, classify n = some o ∧ fsRead fs n = some (.record m) ∧
    net (endpointFor cfg o) m = .status c ∧ (c = 200 ∨ c = 201)

/-- Boolean form of a confirmed delivery, phrased through the code's own
`send_metrics`. -/
def deliveredB (cfg : Config) (net : Net) (fs : FS) (n : String) : Bool :=
  match classify n with
  | some o => send_metrics net fs n (endpointFor cfg o)
  | none => false

/-- Decimal rendering worker, structurally recursive on a fuel argument so
that it reduces inside the kernel; `fuel = n + 1` always suffices. -/
def natDigitsAux : Nat → Nat → List Char
  | 0, _ => []
  | fuel + 1, n =>
    if n < 10 then [Nat.digitChar n]
    else natDigitsAux fuel (n / 10) ++ [Nat.digitChar (n % 10)]

/-- Decimal digits of a natural number, most significant first: the characters
of Python's `f"{int(...)}"` / `str(int)` for a non-negative value. -/
def natDigits (n : Nat) : List Char := natDigitsAux (n + 1) n

/-- `str(n)` for a natural number. -/
def natStr (n : Nat) : String := String.mk (natDigits n)

namespace PCMetrics

/-- The filename built in `MetricsClient.save_metrics`:
`f"pc_metrics_{int(time.time())}.json"`, with the integer timestamp as the
parameter. -/
def fileName (t : Nat) : String :=
  String.mk ("pc_metrics_".data ++ natDigits t ++ ".json".data)

/-- First half of `save_metrics`: `open(filename, 'w')` creates (or truncates)
the file at its final name; at this point the file is visible and empty, which
`json.load` rejects. -/
def openStep (fs : FS) (t : Nat) : FS := fsWrite fs (fileName t) (.corrupt "")

/-- Second half of `save_metrics`: `json.dump(metrics, f)` writes the
serialized record into the already-created file. -/
def dumpStep (fs : FS) (m : Metrics) (t : Nat) : FS :=
  fsWrite fs (fileName t) (.record m)

/-- `MetricsClient.save_metrics`: open at the final name, then dump. -/
def save_metrics (fs : FS) (m : Metrics) (t : Nat) : FS :=
  dumpStep (openStep fs t) m t

end PCMetrics

/-- Remove leading and trailing whitespace from a character list (Python's
`str.strip()`; whitespace is modelled by `Char.isWhitespace`). -/
def stripChars (cs : List Char) : List Char :=
  ((cs.dropWhile Char.isWhitespace).reverse.dropWhile Char.isWhitespace).reverse

/-- Python's `message.strip()`. -/
def pyStrip (s : String) : String := String.mk (stripChars s.data)

/-- Greedy maximal run of decimal digits: the behaviour of `\d+` in the regex
(the run and the remaining characters). -/
def spanDigits : List Char → List Char × List Char
  | [] => ([], [])
  | c :: cs =>
    if c.isDigit then
      let r := spanDigits cs
      (c :: r.1, r.2)
    else ([], c :: cs)

/-- Consume an expected literal at the head of the input, returning the rest,
or `none` on a mismatch. -/
def stripLit : List Char → List Char → Option (List Char)
  | [], cs => some cs
  | _ :: _, [] => none
  | p :: ps, c :: cs => if p = c then stripLit ps cs else none

/-- `re.match(r'Temperature: (\d+\.\d+) C', message)` from
`ESP32MetricsCollector.run`: anchored at the start, literal prefix
`"Temperature: "`, one-or-more digits, a literal dot, one-or-more digits, the
literal `" C"`, and then anything.  Returns the captured group
(`match.group(1)`), i.e. the `digits.digits` text. -/
def matchTempChars (cs : List Char) : Option (List Char) :=
  match stripLit "Temperature: ".data cs with
  | none => none
  | some r1 =>
    if (spanDigits r1).1.isEmpty then none
    else
      match (spanDigits r1).2 with
      | '.' :: r3 =>
        if (spanDigits r3).1.isEmpty then none
        else
          match stripLit " C".data (spanDigits r3).2 with
          | some _ => some ((spanDigits r1).1 ++ '.' :: (spanDigits r3).1)
          | none => none
      | _ => none

namespace ESP32Metrics

/-- The filename built in `ESP32MetricsCollector.save_metrics`:
`f"esp32_metrics_{int(time.time())}.json"`. -/
def fileName (t : Nat) : String :=
  String.mk ("esp32_metrics_".data ++ natDigits t ++ ".json".data)

/-- The payload dict of `ESP32MetricsCollector.save_metrics`. -/
def mkRecord (temperature : String) (t : Nat) : Metrics :=
  .esp "esp32_device" temperature t

/-- `open(filename, 'w')`: file created empty at its final name. -/
def openStep (fs : FS) (t : Nat) : FS := fsWrite fs (fileName t) (.corrupt "")

/-- `json.dump(metrics, f)`. -/
def dumpStep (fs : FS) (temperature : String) (t : Nat) : FS :=
  fsWrite fs (fileName t) (.record (mkRecord temperature t))

/-- `ESP32MetricsCollector.save_metrics`: open at the final name, then dump. -/
def save_metrics (fs : FS) (temperature : String) (t : Nat) : FS :=
  dumpStep (openStep fs t) temperature t

/-- Handling of one received UDP message in `ESP32MetricsCollector.run`:
decode (the message is given already decoded), `strip()`, `re.match` the
temperature pattern; on a match save the metrics, otherwise only log a
warning — the queue is untouched. -/
def handle (fs : FS) (msg : String) (t : Nat) : FS :=
  match matchTempChars (pyStrip msg).data with
  | some d => save_metrics fs (String.mk d) t
  | none => fs

end ESP32Metrics

/-- Declarative reading of the regex: the character list starts with
`Temperature: `, a non-empty digit run, `.`, a non-empty digit run, and
` C`, followed by anything. -/
def TempPattern (cs : List Char) : Prop :=
  ∃ d1 d2 rest,
    cs = "Temperature: ".data ++ d1 ++ '.' :: (d2 ++ ' ' :: 'C' :: rest) ∧
    d1 ≠ [] ∧ d2 ≠ [] ∧ (∀ c ∈ d1, c.isDigit = true) ∧ (∀ c ∈ d2, c.isDigit = true)

/-- An entry name that some `Enqueue` (either producer's `save_metrics`) can
produce. -/
def isEnqueueName (s : String) : Prop :=
  ∃ t : Nat, s = PCMetrics.fileName t ∨ s = ESP32Metrics.fileName t

/-- `true` when no `'p'` is immediately followed by `'c'`; since
`"pc_metrics"` starts with those two characters, such a list cannot contain
it as a substring. -/
def noPCpair : List Char → Bool
  | [] => true
  | [_] => true
  | a :: b :: t => !(a == 'p' && b == 'c') && noPCpair (b :: t)

/-- Concrete fixtures used by witnesses and counterexamples. -/
def cfgEx : Config :=
  { pc_metrics_endpoint := "http://server/metrics"
    esp32_metrics_endpoint := "http://server/esp32metrics" }

/-- A network where every POST is accepted with HTTP 201. -/
def netOk : Net := fun _ _ => .status 201

/-- A network where every POST fails with a connection error. -/
def netDown : Net := fun _ _ => .netError

/-- A sample PC record. -/
def mEx : Metrics := .pc "pc-host" 100 50 2048 1000

/-- A second, different sample PC record. -/
def mEx2 : Metrics := .pc "pc-host" 101 51 2049 1000

/-- A queue holding one corrupted entry and one valid deliverable entry. -/
def fsC4 : FS :=
  [("esp32_metrics_5.json", .corrupt "truncated"), ("pc_metrics_9.json", .record mEx)]

/-! ## Order lemmas for the name sort -/

theorem listLeb_total : ∀ as bs : List Char, listLeb as bs = true ∨ listLeb bs as = true := by
  intro as
  induction as with
  | nil => intro bs; left; rfl
  | cons a at' ih =>
    intro bs
    cases bs with
    | nil => right; rfl
    | cons b bt =>
      by_cases hab : a < b
      · left; simp [listLeb, hab]
      · by_cases hba : b < a
        · right; simp [listLeb, hba]
        · have heq : a = b := le_antisymm (not_lt.mp hba) (not_lt.mp hab)
          subst heq
          rcases ih bt with h | h
          · left; simp [listLeb, h]
          · right; simp [listLeb, h]

theorem listLeb_trans :
    ∀ as bs cs : List Char,
      listLeb as bs = true → listLeb bs cs = true → listLeb as cs = true := by
  intro as
  induction as with
  | nil => intro bs cs _ _; rfl
  | cons a at' ih =>
    intro bs cs h1 h2
    cases bs with
    | nil => simp [listLeb] at h1
    | cons b bt =>
      cases cs with
      | nil => simp [listLeb] at h2
      | cons c ct =>
        simp only [listLeb] at h1 h2 ⊢
        split at h1
        · rename_i hab
          split at h2
          · rename_i hbc
            simp [lt_trans hab hbc]
          · split at h2
            · rename_i hbc
              subst hbc
              simp [hab]
            · exact absurd h2 (by simp)
        · split at h1
          · rename_i hab
            subst hab
            split at h2
            · rename_i hbc
              simp [hbc]
            · split at h2
              · rename_i hbc
                subst hbc
                have := ih bt ct h1 h2
                simp [this]
              · exact absurd h2 (by simp)
          · exact absurd h1 (by simp)

theorem listLeb_antisymm :
    ∀ as bs : List Char, listLeb as bs = true → listLeb bs as = true → as = bs := by
  intro as
  induction as with
  | nil =>
    intro bs _ h2
    cases bs with
    | nil => rfl
    | cons b bt => simp [listLeb] at h2
  | cons a at' ih =>
    intro bs h1 h2
    cases bs with
    | nil => simp [listLeb] at h1
    | cons b bt =>
      simp only [listLeb] at h1 h2
      split at h1
      · rename_i hab
        rw [if_neg (asymm hab), if_neg (ne_of_gt hab)] at h2
        exact absurd h2 (by simp)
      · split at h1
        · rename_i hab
          subst hab
          rw [if_neg (lt_irrefl a), if_pos rfl] at h2
          rw [ih bt h1 h2]
        · exact absurd h1 (by simp)

theorem string_data_inj {a b : String} (h : a.data = b.data) : a = b := by
  cases a with
  | mk da =>
    cases b with
    | mk db => exact congrArg String.mk h

instance : IsTotal String strLe := ⟨fun a b => listLeb_total a.data b.data⟩

instance : IsTrans String strLe := ⟨fun a b c => listLeb_trans a.data b.data c.data⟩

instance : IsAntisymm String strLe :=
  ⟨fun a b h1 h2 => string_data_inj (listLeb_antisymm a.data b.data h1 h2)⟩

theorem sortNames_perm (l : List String) : List.Perm (sortNames l) l :=
  List.perm_insertionSort strLe l

theorem sortNames_sorted (l : List String) : List.Sorted strLe (sortNames l) :=
  List.sorted_insertionSort strLe l

theorem sortNames_eq_of_perm {l1 l2 : List String} (h : List.Perm l1 l2) :
    sortNames l1 = sortNames l2 :=
  List.eq_of_perm_of_sorted ((sortNames_perm l1).trans (h.trans (sortNames_perm l2).symm))
    (sortNames_sorted l1) (sortNames_sorted l2)

theorem listPending_perm (fs : FS) : List.Perm (listPending fs) (fsNames fs) :=
  sortNames_perm _

theorem listPending_nodup {fs : FS} (h : (fsNames fs).Nodup) : (listPending fs).Nodup :=
  ((listPending_perm fs).nodup_iff).mpr h

theorem mem_listPending {fs : FS} {n : String} : n ∈ listPending fs ↔ n ∈ fsNames fs :=
  (listPending_perm fs).mem_iff

/-! ## Filesystem lemmas -/

theorem fsRead_eq_none_of_not_mem {n : String} :
    ∀ {fs : FS}, n ∉ fsNames fs → fsRead fs n = none := by
  intro fs h
  induction fs with
  | nil => rfl
  | cons p t ih =>
    obtain ⟨k, v⟩ := p
    simp only [fsNames, List.map_cons, List.mem_cons, not_or] at h
    have hk : ¬ k = n := fun e => h.1 e.symm
    have ht : n ∉ fsNames t := h.2
    simp [fsRead, hk, ih ht]

theorem mem_of_fsRead_some {n : String} {v : FileContent} :
    ∀ {fs : FS}, fsRead fs n = some v → n ∈ fsNames fs := by
  intro fs h
  by_contra hm
  rw [fsRead_eq_none_of_not_mem hm] at h
  exact Option.noConfusion h

theorem fsRead_isSome_of_mem {n : String} :
    ∀ {fs : FS}, n ∈ fsNames fs → ∃ v, fsRead fs n = some v := by
  intro fs h
  induction fs with
  | nil => simp [fsNames] at h
  | cons p t ih =>
    obtain ⟨k, v⟩ := p
    by_cases hk : k = n
    · exact ⟨v, by simp [fsRead, hk]⟩
    · simp only [fsNames, List.map_cons, List.mem_cons] at h
      have ht : n ∈ fsNames t := h.resolve_left (fun e => hk e.symm)
      obtain ⟨w, hw⟩ := ih ht
      exact ⟨w, by simp [fsRead, hk, hw]⟩

theorem fsRead_fsErase_of_ne {m n : String} (h : m ≠ n) :
    ∀ fs : FS, fsRead (fsErase fs n) m = fsRead fs m := by
  intro fs
  induction fs with
  | nil => rfl
  | cons p t ih =>
    obtain ⟨k, v⟩ := p
    by_cases hk : k = n
    · subst hk
      have hkm : ¬ k = m := fun e => h e.symm
      simp [fsErase, fsRead, hkm]
    · simp only [fsErase, if_neg hk, fsRead]
      by_cases hm : k = m
      · simp [hm]
      · simp [hm, ih]

theorem fsRead_fsErase_self {n : String} :
    ∀ {fs : FS}, (fsNames fs).Nodup → fsRead (fsErase fs n) n = none := by
  intro fs h
  induction fs with
  | nil => rfl
  | cons p t ih =>
    obtain ⟨k, v⟩ := p
    simp only [fsNames, List.map_cons, List.nodup_cons] at h
    by_cases hk : k = n
    · subst hk
      simp only [fsErase, if_pos rfl]
      exact fsRead_eq_none_of_not_mem h.1
    · have hkn : ¬ k = n := hk
      simp [fsErase, fsRead, hkn, ih h.2]

theorem fsNames_fsErase_sublist (n : String) :
    ∀ fs : FS, List.Sublist (fsNames (fsErase fs n)) (fsNames fs) := by
  intro fs
  induction fs with
  | nil => simp [fsErase, fsNames]
  | cons p t ih =>
    obtain ⟨k, v⟩ := p
    by_cases hk : k = n
    · simp only [fsErase, if_pos hk, fsNames, List.map_cons]
      exact List.sublist_cons_self k (fsNames t)
    · simpa [fsErase, fsNames, hk] using ih.cons₂ k

theorem nodup_fsNames_fsErase {fs : FS} {n : String} (h : (fsNames fs).Nodup) :
    (fsNames (fsErase fs n)).Nodup :=
  (fsNames_fsErase_sublist n fs).nodup h

theorem fsRead_fsWrite_self (fs : FS) (n : String) (c : FileContent) :
    fsRead (fsWrite fs n c) n = some c := by
  simp [fsWrite, fsRead]

theorem fsRead_fsWrite_of_ne {m n : String} (h : m ≠ n) (fs : FS) (c : FileContent) :
    fsRead (fsWrite fs n c) m = fsRead fs m := by
  have hnm : ¬ n = m := fun e => h e.symm
  simp only [fsWrite, fsRead, if_neg hnm]
  exact fsRead_fsErase_of_ne h fs

/-! ## Delivery lemmas -/

theorem send_metrics_eq_true_iff {net : Net} {fs : FS} {f ep : String} :
    send_metrics net fs f ep = true ↔
      ∃ m c, fsRead fs f = some (.record m) ∧ net ep m = .status c ∧ (c = 200 ∨ c = 201) := by
  unfold send_metrics
  cases hr : fsRead fs f with
  | none => simp
  | some content =>
    cases content with
    | corrupt s => simp
    | record m =>
      cases hn : net ep m with
      | netError => simp [hn]
      | status c => simp [hn, Bool.or_eq_true, beq_iff_eq]

theorem fsRemove_of_send {net : Net} {fs : FS} {f ep : String}
    (h : send_metrics net fs f ep = true) : fsRemove fs f = .ok (fsErase fs f) := by
  obtain ⟨m, c, hr, -, -⟩ := send_metrics_eq_true_iff.mp h
  simp [fsRemove, hr]

theorem send_metrics_congr {net : Net} {fs fs' : FS} {f ep : String}
    (h : fsRead fs' f = fsRead fs f) :
    send_metrics net fs' f ep = send_metrics net fs f ep := by
  unfold send_metrics
  rw [h]

theorem deliveredB_congr {cfg : Config} {net : Net} {fs fs' : FS} {n : String}
    (h : fsRead fs' n = fsRead fs n) :
    deliveredB cfg net fs' n = deliveredB cfg net fs n := by
  unfold deliveredB
  cases classify n with
  | none => rfl
  | some o => exact send_metrics_congr h

theorem deliveredB_eq_none {cfg : Config} {net : Net} {fs : FS} {n : String}
    (hc : classify n = none) : deliveredB cfg net fs n = false := by
  unfold deliveredB
  rw [hc]

theorem deliveredB_eq_some {cfg : Config} {net : Net} {fs : FS} {n : String} {o : Origin}
    (hc : classify n = some o) :
    deliveredB cfg net fs n = send_metrics net fs n (endpointFor cfg o) := by
  unfold deliveredB
  rw [hc]

theorem deliveredB_eq_true_iff {cfg : Config} {net : Net} {fs : FS} {n : String} :
    deliveredB cfg net fs n = true ↔ deliveredOk cfg net fs n := by
  cases hc : classify n with
  | none =>
    rw [deliveredB_eq_none hc]
    unfold deliveredOk
    simp [hc]
  | some o =>
    rw [deliveredB_eq_some hc, send_metrics_eq_true_iff]
    unfold deliveredOk
    constructor
    · rintro ⟨m, c, hr, hn, hcc⟩
      exact ⟨o, m, c, hc, hr, hn, hcc⟩
    · rintro ⟨o', m, c, ho', hr, hn, hcc⟩
      rw [hc] at ho'
      cases ho'
      exact ⟨m, c, hr, hn, hcc⟩

theorem fsRead_record_of_deliveredB {cfg : Config} {net : Net} {fs : FS} {n : String}
    (h : deliveredB cfg net fs n = true) : ∃ m, fsRead fs n = some (.record m) := by
  cases hc : classify n with
  | none =>
    rw [deliveredB_eq_none hc] at h
    exact absurd h (by simp)
  | some o =>
    rw [deliveredB_eq_some hc] at h
    obtain ⟨m, c, hr, -, -⟩ := send_metrics_eq_true_iff.mp h
    exact ⟨m, hr⟩

/-! ## Cycle lemmas -/

theorem processEntries_trace (cfg : Config) (net : Net) :
    ∀ (l : List String) (fs : FS), (processEntries cfg net fs l).2 = l := by
  intro l
  induction l with
  | nil => intro fs; rfl
  | cons f rest ih =>
    intro fs
    unfold processEntries
    cases hc : classify f with
    | none => simp [ih]
    | some o =>
      cases hs : send_metrics net fs f (endpointFor cfg o) with
      | false => simp [hs, ih]
      | true => simp [hs, fsRemove_of_send hs, ih]

theorem processEntries_fsRead_of_not_mem (cfg : Config) (net : Net) :
    ∀ (l : List String) (fs : FS) (n : String), n ∉ l →
      fsRead (processEntries cfg net fs l).1 n = fsRead fs n := by
  intro l
  induction l with
  | nil => intro fs n _; rfl
  | cons f rest ih =>
    intro fs n hn
    have hnf : n ≠ f := fun e => hn (by simp [e])
    have hnr : n ∉ rest := fun m => hn (by simp [m])
    unfold processEntries
    cases hc : classify f with
    | none => simpa using ih fs n hnr
    | some o =>
      cases hs : send_metrics net fs f (endpointFor cfg o) with
      | false => simpa [hs] using ih fs n hnr
      | true =>
        simp only [hs, if_true, fsRemove_of_send hs]
        rw [ih (fsErase fs f) n hnr]
        exact fsRead_fsErase_of_ne hnf fs

theorem processEntries_fsRead (cfg : Config) (net : Net) :
    ∀ (l : List String) (fs : FS), (fsNames fs).Nodup → l.Nodup → ∀ n : String,
      fsRead (processEntries cfg net fs l).1 n =
        if n ∈ l ∧ deliveredB cfg net fs n = true then none else fsRead fs n := by
  intro l
  induction l with
  | nil =>
    intro fs _ _ n
    simp [processEntries]
  | cons f rest ih =>
    intro fs hfs hl n
    have hfr : f ∉ rest := (List.nodup_cons.mp hl).1
    have hl' : rest.Nodup := (List.nodup_cons.mp hl).2
    unfold processEntries
    cases hc : classify f with
    | none =>
      have hdf : deliveredB cfg net fs f = false := deliveredB_eq_none hc
      simp only
      rw [ih fs hfs hl' n]
      by_cases hn : n = f
      · subst hn
        simp [hfr, hdf]
      · simp [List.mem_cons, hn]
    | some o =>
      cases hs : send_metrics net fs f (endpointFor cfg o) with
      | false =>
        have hdf : deliveredB cfg net fs f = false := by rw [deliveredB_eq_some hc]; exact hs
        simp only [hs, Bool.false_eq_true, if_false]
        rw [ih fs hfs hl' n]
        by_cases hn : n = f
        · subst hn
          simp [hfr, hdf]
        · simp [List.mem_cons, hn]
      | true =>
        have hdf : deliveredB cfg net fs f = true := by rw [deliveredB_eq_some hc]; exact hs
        simp only [hs, if_true, fsRemove_of_send hs]
        rw [ih (fsErase fs f) (nodup_fsNames_fsErase hfs) hl' n]
        by_cases hn : n = f
        · subst hn
          have h1 : fsRead (fsErase fs n) n = none := fsRead_fsErase_self hfs
          simp [hfr, hdf, h1]
        · have h1 : fsRead (fsErase fs f) n = fsRead fs n := fsRead_fsErase_of_ne hn fs
          have h2 : deliveredB cfg net (fsErase fs f) n = deliveredB cfg net fs n :=
            deliveredB_congr h1
          simp [List.mem_cons, hn, h1, h2]

theorem processEntries_names_sublist (cfg : Config) (net : Net) :
    ∀ (l : List String) (fs : FS),
      List.Sublist (fsNames (processEntries cfg net fs l).1) (fsNames fs) := by
  intro l
  induction l with
  | nil => intro fs; exact List.Sublist.refl _
  | cons f rest ih =>
    intro fs
    unfold processEntries
    cases hc : classify f with
    | none => simpa using ih fs
    | some o =>
      cases hs : send_metrics net fs f (endpointFor cfg o) with
      | false => simpa [hs] using ih fs
      | true =>
        simp only [hs, if_true, fsRemove_of_send hs]
        exact (ih (fsErase fs f)).trans (fsNames_fsErase_sublist f fs)

theorem process_queue_trace (cfg : Config) (net : Net) (fs : FS) :
    (process_queue cfg net fs).2 = listPending fs :=
  processEntries_trace cfg net (listPending fs) fs

theorem process_queue_fsRead (cfg : Config) (net : Net) {fs : FS}
    (hfs : (fsNames fs).Nodup) (n : String) :
    fsRead (process_queue cfg net fs).1 n =
      if deliveredB cfg net fs n = true then none else fsRead fs n := by
  unfold process_queue
  rw [processEntries_fsRead cfg net (listPending fs) fs hfs (listPending_nodup hfs) n]
  by_cases hd : deliveredB cfg net fs n = true
  · obtain ⟨m, hm⟩ := fsRead_record_of_deliveredB hd
    have : n ∈ listPending fs := mem_listPending.mpr (mem_of_fsRead_some hm)
    simp [hd, this]
  · simp [hd]

/-! ## Substring and digit lemmas -/

theorem isPref_append_self : ∀ p r : List Char, listIsPref p (p ++ r) = true := by
  intro p r
  induction p with
  | nil => rfl
  | cons a as ih => simp [listIsPref, ih]

theorem hasSub_of_isPref {p hay : List Char} (h : listIsPref p hay = true) :
    listHasSub p hay = true := by
  cases hay with
  | nil => exact h
  | cons c t => simp [listHasSub, h]

theorem noPCpair_tail : ∀ {c : Char} {t : List Char},
    noPCpair (c :: t) = true → noPCpair t = true := by
  intro c t h
  cases t with
  | nil => rfl
  | cons b t2 =>
    simp only [noPCpair, Bool.and_eq_true] at h
    exact h.2

theorem hasSub_pc_eq_false :
    ∀ hay : List Char, noPCpair hay = true → listHasSub "pc_metrics".data hay = false := by
  intro hay
  induction hay with
  | nil => intro _; rfl
  | cons c t ih =>
    intro h
    have ht : noPCpair t = true := noPCpair_tail h
    have hd : "pc_metrics".data = 'p' :: 'c' :: "_metrics".data := rfl
    have hpref : listIsPref "pc_metrics".data (c :: t) = false := by
      rw [hd]
      by_cases hcp : c = 'p'
      · subst hcp
        cases t with
        | nil => rfl
        | cons b t2 =>
          have hb : (b == 'c') = false := by
            simp only [noPCpair, Bool.and_eq_true, Bool.not_eq_true'] at h
            have h1 := h.1
            simp only [Bool.and_eq_false_iff] at h1
            rcases h1 with h1 | h1
            · exact absurd h1 (by simp)
            · exact h1
          have hcb : ('c' == b) = false := by
            rw [beq_eq_false_iff_ne] at hb ⊢
            exact fun e => hb e.symm
          simp [listIsPref, hcb]
      · have hpc : ('p' == c) = false := beq_eq_false_iff_ne.mpr (fun e => hcp e.symm)
        simp [listIsPref, hpc]
    simp [listHasSub, hpref, ih ht]

theorem digitChar_isDigit {d : Nat} (h : d < 10) : (Nat.digitChar d).isDigit = true := by
  interval_cases d <;> decide

theorem natDigitsAux_digits :
    ∀ fuel n : Nat, ∀ c ∈ natDigitsAux fuel n, c.isDigit = true := by
  intro fuel
  induction fuel with
  | zero =>
    intro n c hc
    simp [natDigitsAux] at hc
  | succ f ih =>
    intro n c hc
    by_cases h : n < 10
    · simp only [natDigitsAux, if_pos h, List.mem_singleton] at hc
      subst hc
      exact digitChar_isDigit h
    · simp only [natDigitsAux, if_neg h] at hc
      rcases List.mem_append.mp hc with h1 | h2
      · exact ih (n / 10) c h1
      · rw [List.mem_singleton] at h2
        subst h2
        exact digitChar_isDigit (Nat.mod_lt _ (by omega))

theorem natDigits_digits (n : Nat) : ∀ c ∈ natDigits n, c.isDigit = true :=
  natDigitsAux_digits (n + 1) n

theorem isDigit_ne_p {c : Char} (h : c.isDigit = true) : (c == 'p') = false := by
  rw [beq_eq_false_iff_ne]
  intro e
  subst e
  exact absurd h (by decide)

theorem noPCpair_digits_json :
    ∀ ds : List Char, (∀ c ∈ ds, c.isDigit = true) →
      noPCpair (ds ++ ".json".data) = true := by
  intro ds
  induction ds with
  | nil => intro _; decide
  | cons d dt ih =>
    intro h
    have hd : d.isDigit = true := h d (by simp)
    have hdt : ∀ c ∈ dt, c.isDigit = true := fun c hc => h c (by simp [hc])
    have hdp : (d == 'p') = false := isDigit_ne_p hd
    cases dt with
    | nil =>
      have hj : noPCpair ('.' :: "json".data) = true := by decide
      show (!(d == 'p' && ('.' == 'c')) && noPCpair ('.' :: "json".data)) = true
      simp [hdp, hj]
    | cons d2 dt2 =>
      have h2 : noPCpair (d2 :: (dt2 ++ ".json".data)) = true := by
        have := ih hdt
        simpa using this
      show (!(d == 'p' && (d2 == 'c')) && noPCpair (d2 :: (dt2 ++ ".json".data))) = true
      simp [hdp, h2]

theorem noPCpair_esp_name (rest : List Char) (h : noPCpair ('_' :: rest) = true) :
    noPCpair ("esp32_metrics_".data ++ rest) = true := by
  have hd : "esp32_metrics_".data ++ rest =
      'e' :: 's' :: 'p' :: '3' :: '2' :: '_' :: 'm' :: 'e' :: 't' :: 'r' :: 'i' :: 'c' :: 's' :: '_' :: rest := rfl
  rw [hd]
  simp only [noPCpair]
  rw [h]
  decide

/-! ## Producer filename classification -/

theorem classify_pc_fileName (t : Nat) :
    classify (PCMetrics.fileName t) = some Origin.pc := by
  have hdata : (PCMetrics.fileName t).data =
      "pc_metrics".data ++ ('_' :: (natDigits t ++ ".json".data)) := by
    show ("pc_metrics_".data ++ natDigits t ++ ".json".data) =
      "pc_metrics".data ++ ('_' :: (natDigits t ++ ".json".data))
    have h1 : "pc_metrics_".data = "pc_metrics".data ++ ['_'] := rfl
    rw [h1]
    simp [List.append_assoc]
  have hsub : containsSub (PCMetrics.fileName t) "pc_metrics" = true := by
    unfold containsSub
    rw [hdata]
    exact hasSub_of_isPref (isPref_append_self _ _)
  unfold classify
  rw [hsub]
  rfl

theorem classify_esp_fileName (t : Nat) :
    classify (ESP32Metrics.fileName t) = some Origin.esp32 := by
  have hdata : (ESP32Metrics.fileName t).data =
      "esp32_metrics_".data ++ (natDigits t ++ ".json".data) := by
    show ("esp32_metrics_".data ++ natDigits t ++ ".json".data) =
      "esp32_metrics_".data ++ (natDigits t ++ ".json".data)
    simp [List.append_assoc]
  have hnp : noPCpair ('_' :: (natDigits t ++ ".json".data)) = true := by
    cases hnd : natDigits t with
    | nil => decide
    | cons d dt =>
      have hdig : ∀ c ∈ d :: dt, c.isDigit = true := by
        rw [← hnd]
        exact natDigits_digits t
      have h2 : noPCpair (d :: (dt ++ ".json".data)) = true := by
        have := noPCpair_digits_json (d :: dt) hdig
        simpa using this
      show (!(('_' == 'p') && (d == 'c')) && noPCpair (d :: (dt ++ ".json".data))) = true
      simp [h2]
  have hpc : containsSub (ESP32Metrics.fileName t) "pc_metrics" = false := by
    unfold containsSub
    rw [hdata]
    exact hasSub_pc_eq_false _ (noPCpair_esp_name _ hnp)
  have hesp : containsSub (ESP32Metrics.fileName t) "esp32_metrics" = true := by
    unfold containsSub
    rw [hdata]
    have h1 : "esp32_metrics_".data ++ (natDigits t ++ ".json".data) =
        "esp32_metrics".data ++ ('_' :: (natDigits t ++ ".json".data)) := rfl
    rw [h1]
    exact hasSub_of_isPref (isPref_append_self _ _)
  unfold classify
  rw [hpc, hesp]
  rfl

theorem classify_eq_none_iff (n : String) :
    classify n = none ↔
      containsSub n "pc_metrics" = false ∧ containsSub n "esp32_metrics" = false := by
  unfold classify
  by_cases h1 : containsSub n "pc_metrics" = true
  · simp [h1]
  · have h1' : containsSub n "pc_metrics" = false := by
      cases h : containsSub n "pc_metrics"
      · rfl
      · exact absurd h h1
    by_cases h2 : containsSub n "esp32_metrics" = true
    · simp [h1', h2]
    · have h2' : containsSub n "esp32_metrics" = false := by
        cases h : containsSub n "esp32_metrics"
        · rfl
        · exact absurd h h2
      simp [h1', h2']

/-! ## Write-over-write and producer lemmas -/

theorem fsWrite_fsWrite (fs : FS) (n : String) (c c' : FileContent) :
    fsWrite (fsWrite fs n c) n c' = fsWrite fs n c' := by
  simp [fsWrite, fsErase]

theorem esp_save_eq (fs : FS) (s : String) (t : Nat) :
    ESP32Metrics.save_metrics fs s t =
      fsWrite fs (ESP32Metrics.fileName t) (.record (ESP32Metrics.mkRecord s t)) := by
  unfold ESP32Metrics.save_metrics ESP32Metrics.dumpStep ESP32Metrics.openStep
  exact fsWrite_fsWrite fs _ _ _

theorem pc_save_eq (fs : FS) (m : Metrics) (t : Nat) :
    PCMetrics.save_metrics fs m t = fsWrite fs (PCMetrics.fileName t) (.record m) := by
  unfold PCMetrics.save_metrics PCMetrics.dumpStep PCMetrics.openStep
  exact fsWrite_fsWrite fs _ _ _

/-! ## Regex lemmas -/

theorem stripLit_append : ∀ p r : List Char, stripLit p (p ++ r) = some r := by
  intro p r
  induction p with
  | nil => rfl
  | cons a as ih => simp [stripLit, ih]

theorem stripLit_eq_some : ∀ {p cs r : List Char}, stripLit p cs = some r → cs = p ++ r := by
  intro p
  induction p with
  | nil =>
    intro cs r h
    simp only [stripLit, Option.some.injEq] at h
    rw [h]
    rfl
  | cons a as ih =>
    intro cs r h
    cases cs with
    | nil => exact absurd h (by simp [stripLit])
    | cons c ct =>
      by_cases hac : a = c
      · subst hac
        simp only [stripLit, if_pos rfl] at h
        rw [List.cons_append, ← ih h]
      · simp [stripLit, hac] at h

theorem spanDigits_spec (cs : List Char) :
    cs = (spanDigits cs).1 ++ (spanDigits cs).2 ∧
    (∀ c ∈ (spanDigits cs).1, c.isDigit = true) ∧
    (∀ x xs, (spanDigits cs).2 = x :: xs → x.isDigit = false) := by
  induction cs with
  | nil =>
    refine ⟨rfl, by simp [spanDigits], ?_⟩
    intro x xs h
    simp [spanDigits] at h
  | cons c ct ih =>
    by_cases hc : c.isDigit = true
    · simp only [spanDigits, hc, if_true]
      refine ⟨?_, ?_, ?_⟩
      · rw [List.cons_append, ← ih.1]
      · intro x hx
        rcases List.mem_cons.mp hx with h1 | h2
        · subst h1; exact hc
        · exact ih.2.1 x h2
      · exact ih.2.2
    · have hc' : c.isDigit = false := by
        cases h : c.isDigit
        · rfl
        · exact absurd h hc
      simp only [spanDigits, hc', Bool.false_eq_true, if_false]
      refine ⟨rfl, by simp, ?_⟩
      intro x xs h
      injection h with h1 h2
      subst h1
      exact hc'

theorem spanDigits_append :
    ∀ d : List Char, (∀ c ∈ d, c.isDigit = true) →
      ∀ (x : Char), x.isDigit = false →
        ∀ r : List Char, spanDigits (d ++ x :: r) = (d, x :: r) := by
  intro d
  induction d with
  | nil =>
    intro _ x hx r
    simp [spanDigits, hx]
  | cons a as ih =>
    intro h x hx r
    have ha : a.isDigit = true := h a (by simp)
    have has : ∀ c ∈ as, c.isDigit = true := fun c hc => h c (by simp [hc])
    simp [spanDigits, ha, ih has x hx r]

theorem matchTempChars_isSome_iff (cs : List Char) :
    (matchTempChars cs).isSome = true ↔ TempPattern cs := by
  constructor
  · intro h
    unfold matchTempChars at h
    split at h
    · simp at h
    · rename_i r1 hsl
      split at h
      · simp at h
      · rename_i hemp1
        split at h
        · rename_i r3 hdot
          split at h
          · simp at h
          · rename_i hemp2
            split at h
            · rename_i u hC
              have e1 : cs = "Temperature: ".data ++ r1 := stripLit_eq_some hsl
              have e2 : r1 = (spanDigits r1).1 ++ (spanDigits r1).2 := (spanDigits_spec r1).1
              have e3 : r3 = (spanDigits r3).1 ++ (spanDigits r3).2 := (spanDigits_spec r3).1
              have e4 : (spanDigits r3).2 = ' ' :: 'C' :: u := stripLit_eq_some hC
              refine ⟨(spanDigits r1).1, (spanDigits r3).1, u, ?_, ?_, ?_, ?_, ?_⟩
              · have key : cs = "Temperature: ".data ++
                    ((spanDigits r1).1 ++ '.' :: ((spanDigits r3).1 ++ ' ' :: 'C' :: u)) := by
                  rw [e1]
                  congr 1
                  conv_lhs => rw [e2]
                  rw [hdot]
                  congr 2
                  conv_lhs => rw [e3]
                  rw [e4]
                rw [List.append_assoc]
                exact key
              · intro e
                rw [e] at hemp1
                exact hemp1 rfl
              · intro e
                rw [e] at hemp2
                exact hemp2 rfl
              · exact (spanDigits_spec r1).2.1
              · exact (spanDigits_spec r3).2.1
            · simp at h
        · simp at h
  · rintro ⟨d1, d2, rest, hcs, h1, h2, hd1, hd2⟩
    have he1 : d1.isEmpty = false := by
      cases d1 with
      | nil => exact absurd rfl h1
      | cons a b => rfl
    have he2 : d2.isEmpty = false := by
      cases d2 with
      | nil => exact absurd rfl h2
      | cons a b => rfl
    have hsc : stripLit " C".data (' ' :: 'C' :: rest) = some rest :=
      stripLit_append " C".data rest
    have hassoc : "Temperature: ".data ++ d1 ++ '.' :: (d2 ++ ' ' :: 'C' :: rest) =
        "Temperature: ".data ++ (d1 ++ '.' :: (d2 ++ ' ' :: 'C' :: rest)) := by
      simp [List.append_assoc]
    subst hcs
    rw [hassoc]
    unfold matchTempChars
    simp only [stripLit_append, spanDigits_append d1 hd1 '.' (by decide), he1,
      Bool.false_eq_true, if_false, spanDigits_append d2 hd2 ' ' (by decide), he2,
      hsc, Option.isSome_some]

/-! ## Claim theorems -/

/-- C1: in every queue-processing cycle, over every queue state and every
network behaviour (so regardless of which entries fail to read, classify or
deliver), no per-entry error escapes its entry's handling and aborts the
cycle: the cycle's trace is exactly the pending listing, each pending entry
visited once, before the uploader sleeps. -/
theorem claim1_cycle_attempts_every_entry (cfg : Config) (net : Net) (fs : FS)
    (h : (fsNames fs).Nodup) :
    (process_queue cfg net fs).2 = listPending fs ∧
    List.Perm (process_queue cfg net fs).2 (fsNames fs) ∧
    (process_queue cfg net fs).2.Nodup := by
  refine ⟨process_queue_trace cfg net fs, ?_, ?_⟩
  · rw [process_queue_trace]
    exact listPending_perm fs
  · rw [process_queue_trace]
    exact listPending_nodup h

theorem claim1_witness :
    (process_queue cfgEx netDown fsC4).2 = listPending fsC4 :=
  (claim1_cycle_attempts_every_entry cfgEx netDown fsC4 (by decide)).1

/-- C2: a pending entry's file is deleted by the cycle iff the POST of its
record to the classified endpoint returned HTTP 200 or 201; on a raised
timeout/connection error, any other status code, or an unreadable entry, the
entry is left in place with its content unchanged. -/
theorem claim2_remove_iff_accepted (cfg : Config) (net : Net) (fs : FS) (n : String)
    (h : (fsNames fs).Nodup) (hn : n ∈ fsNames fs) :
    (fsRead (process_queue cfg net fs).1 n = none ↔ deliveredOk cfg net fs n) ∧
    (¬ deliveredOk cfg net fs n →
      fsRead (process_queue cfg net fs).1 n = fsRead fs n) := by
  have hout := process_queue_fsRead cfg net h n
  by_cases hd : deliveredB cfg net fs n = true
  · rw [if_pos hd] at hout
    refine ⟨⟨fun _ => deliveredB_eq_true_iff.mp hd, fun _ => hout⟩, ?_⟩
    intro hnd
    exact absurd (deliveredB_eq_true_iff.mp hd) hnd
  · rw [if_neg hd] at hout
    obtain ⟨v, hv⟩ := fsRead_isSome_of_mem hn
    refine ⟨⟨?_, ?_⟩, fun _ => hout⟩
    · intro hnone
      rw [hout, hv] at hnone
      exact Option.noConfusion hnone
    · intro hok
      exact absurd (deliveredB_eq_true_iff.mpr hok) hd

theorem claim2_witness :
    fsRead (process_queue cfgEx netOk fsC4).1 "pc_metrics_9.json" = none :=
  (claim2_remove_iff_accepted cfgEx netOk fsC4 "pc_metrics_9.json"
      (by decide) (by decide)).1.mpr
    ⟨Origin.pc, mEx, 201, by decide, rfl, rfl, Or.inr rfl⟩

/-- C3 counterexample: removing an entry whose file no longer exists raises
`FileNotFoundError` (`Except.error ()`), refuting "removing an
already-removed handle is not an error". -/
theorem claim3_counterexample :
    fsRemove ([] : FS) "pc_metrics_1000.json" = .error () := rfl

/-- C3 amended: `Remove` is not idempotent: removing an entry whose file no
longer exists raises an error (`os.remove` signals `FileNotFoundError`), for
every queue state and handle. -/
theorem claim3_remove_missing_raises (fs : FS) (n : String) (h : fsRead fs n = none) :
    fsRemove fs n = .error () := by
  unfold fsRemove
  rw [h]

theorem claim3_witness :
    fsRemove [("pc_metrics_1000.json", FileContent.record mEx)] "esp32_metrics_5.json" =
      .error () :=
  claim3_remove_missing_raises _ _ (by decide)

/-- C4 counterexample: with a corrupted entry in the queue and an endpoint
accepting everything, after one full cycle the corrupted entry is still
pending with the same content, and the next cycle attempts it again — the
uploader retries it forever instead of quarantining it. -/
theorem claim4_counterexample :
    fsRead (process_queue cfgEx netOk fsC4).1 "esp32_metrics_5.json" =
      some (.corrupt "truncated") ∧
    (process_queue cfgEx netOk (process_queue cfgEx netOk fsC4).1).2 =
      ["esp32_metrics_5.json"] := by
  constructor
  · decide
  · decide

/-- C4 amended: reading a corrupted entry fails inside `send_metrics`, so the
uploader skips the entry, leaving it pending and unchanged — it is retried on
every later cycle, with no quarantine; the cycle itself still visits every
pending entry, and every other deliverable entry of the same cycle is still
delivered and removed. -/
theorem claim4_corrupt_skipped_not_quarantined (cfg : Config) (net : Net) (fs : FS)
    (n s : String) (h : (fsNames fs).Nodup) (hc : fsRead fs n = some (.corrupt s)) :
    fsRead (process_queue cfg net fs).1 n = some (.corrupt s) ∧
    (process_queue cfg net fs).2 = listPending fs ∧
    (∀ m, m ≠ n → deliveredOk cfg net fs m →
      fsRead (process_queue cfg net fs).1 m = none) := by
  have hd : deliveredB cfg net fs n = false := by
    cases hcl : classify n with
    | none => exact deliveredB_eq_none hcl
    | some o =>
      rw [deliveredB_eq_some hcl]
      cases hs : send_metrics net fs n (endpointFor cfg o) with
      | false => rfl
      | true =>
        obtain ⟨m, c, hr, -, -⟩ := send_metrics_eq_true_iff.mp hs
        rw [hc] at hr
        exact absurd hr (by simp)
  refine ⟨?_, process_queue_trace cfg net fs, ?_⟩
  · rw [process_queue_fsRead cfg net h n, if_neg (by simp [hd]), hc]
  · intro m _ hok
    rw [process_queue_fsRead cfg net h m, if_pos (deliveredB_eq_true_iff.mpr hok)]

theorem claim4_witness :
    fsRead (process_queue cfgEx netOk fsC4).1 "esp32_metrics_5.json" =
      some (FileContent.corrupt "truncated") ∧
    fsRead (process_queue cfgEx netOk fsC4).1 "pc_metrics_9.json" = none := by
  have h := claim4_corrupt_skipped_not_quarantined cfgEx netOk fsC4
    "esp32_metrics_5.json" "truncated" (by decide) (by decide)
  exact ⟨h.1, h.2.2 "pc_metrics_9.json" (by decide)
    ⟨Origin.pc, mEx, 201, by decide, rfl, rfl, Or.inr rfl⟩⟩

/-- C5 counterexample: classification is by substring, so the entry name
`"xpc_metrics_1000.json"`, which no `Enqueue` can produce, is routed to the
PC endpoint instead of signalling unknown — the classifier guesses. -/
theorem claim5_counterexample :
    classify "xpc_metrics_1000.json" = some Origin.pc ∧
    ¬ isEnqueueName "xpc_metrics_1000.json" := by
  constructor
  · decide
  · rintro ⟨t, h | h⟩
    · have hx : some 'x' = some 'p' := by
        calc some 'x' = "xpc_metrics_1000.json".data.head? := rfl
          _ = (PCMetrics.fileName t).data.head? := by rw [h]
          _ = some 'p' := rfl
      exact absurd hx (by decide)
    · have hx : some 'x' = some 'e' := by
        calc some 'x' = "xpc_metrics_1000.json".data.head? := rfl
          _ = (ESP32Metrics.fileName t).data.head? := by rw [h]
          _ = some 'e' := rfl
      exact absurd hx (by decide)

/-- C5 amended: classification is total and yields the producing origin on
every name `Enqueue` produces; it signals unknown exactly when the name
contains neither `pc_metrics` nor `esp32_metrics` as a substring (so some
non-`Enqueue` names are also classified), and an unknown entry is logged and
left in place unchanged by the cycle. -/
theorem claim5_classification (t : Nat) (n : String) (cfg : Config) (net : Net)
    (fs : FS) (h : (fsNames fs).Nodup) :
    classify (PCMetrics.fileName t) = some Origin.pc ∧
    classify (ESP32Metrics.fileName t) = some Origin.esp32 ∧
    (classify n = none ↔
      containsSub n "pc_metrics" = false ∧ containsSub n "esp32_metrics" = false) ∧
    (classify n = none → fsRead (process_queue cfg net fs).1 n = fsRead fs n) := by
  refine ⟨classify_pc_fileName t, classify_esp_fileName t, classify_eq_none_iff n, ?_⟩
  intro hcl
  rw [process_queue_fsRead cfg net h n, if_neg (by simp [deliveredB_eq_none hcl])]

theorem claim5_witness :
    classify (PCMetrics.fileName 1000) = some Origin.pc ∧
    classify (ESP32Metrics.fileName 1000) = some Origin.esp32 ∧
    fsRead (process_queue cfgEx netOk [("notes.txt", .corrupt "hi")]).1 "notes.txt" =
      some (.corrupt "hi") := by
  have h := claim5_classification 1000 "notes.txt" cfgEx netOk
    [("notes.txt", .corrupt "hi")] (by decide)
  refine ⟨h.1, h.2.1, ?_⟩
  rw [h.2.2.2 (by decide)]
  decide

/-- C6: the filename is built from the epoch second only, so two enqueues in
the same second produce the identical name `pc_metrics_1000.json`, and the
second `open(..., 'w')` overwrites the first record, which is lost — despite
the code's own comment "Create a unique filename with timestamp". -/
theorem claim6_same_second_collision_overwrites :
    PCMetrics.fileName 1000 = "pc_metrics_1000.json" ∧
    PCMetrics.save_metrics (PCMetrics.save_metrics [] mEx 1000) mEx2 1000 =
      [("pc_metrics_1000.json", FileContent.record mEx2)] ∧
    mEx ≠ mEx2 := by
  refine ⟨by decide, by decide, by decide⟩

/-- C7 counterexample: immediately after the `open(filename, 'w')` step of
`save_metrics` — before `json.dump` runs — the entry is already listed at its
final name with empty, unparseable content: a concurrent `ListPending`/`Read`
observes a partially written entry, refuting the atomic-publish claim. -/
theorem claim7_counterexample :
    fsNames (PCMetrics.openStep [] 1000) = ["pc_metrics_1000.json"] ∧
    fsRead (PCMetrics.openStep [] 1000) "pc_metrics_1000.json" =
      some (FileContent.corrupt "") ∧
    FileContent.corrupt "" ≠ FileContent.record mEx := by
  refine ⟨by decide, by decide, by decide⟩

/-- C7 amended: both producers' `Enqueue` opens the entry at its final name
and then dumps the record in place (no temporary name, no rename): in the
state between the two steps the entry is listed and reads as empty corrupt
content, and only the completed `save_metrics` leaves the serialized record
there — publication is not atomic. -/
theorem claim7_nonatomic_publish (fs : FS) (m : Metrics) (s : String) (t : Nat) :
    (PCMetrics.fileName t ∈ fsNames (PCMetrics.openStep fs t) ∧
     fsRead (PCMetrics.openStep fs t) (PCMetrics.fileName t) =
       some (.corrupt "") ∧
     fsRead (PCMetrics.save_metrics fs m t) (PCMetrics.fileName t) =
       some (.record m)) ∧
    (ESP32Metrics.fileName t ∈ fsNames (ESP32Metrics.openStep fs t) ∧
     fsRead (ESP32Metrics.openStep fs t) (ESP32Metrics.fileName t) =
       some (.corrupt "") ∧
     fsRead (ESP32Metrics.save_metrics fs s t) (ESP32Metrics.fileName t) =
       some (.record (ESP32Metrics.mkRecord s t))) := by
  refine ⟨⟨?_, ?_, ?_⟩, ?_, ?_, ?_⟩
  · simp [PCMetrics.openStep, fsWrite, fsNames]
  · exact fsRead_fsWrite_self _ _ _
  · rw [pc_save_eq]
    exact fsRead_fsWrite_self _ _ _
  · simp [ESP32Metrics.openStep, fsWrite, fsNames]
  · exact fsRead_fsWrite_self _ _ _
  · rw [esp_save_eq]
    exact fsRead_fsWrite_self _ _ _

/-- C8: the cycle processes pending entries in deterministic lexicographic
filename order: `ListPending` sorts (`strLe`, lexicographic by code point)
the entries present at call time — the same result for every raw `os.listdir`
order — and the cycle's trace is exactly that sorted listing. -/
theorem claim8_deterministic_order (cfg : Config) (net : Net) (fs : FS)
    (listing : List String) (h : List.Perm listing (fsNames fs)) :
    List.Sorted strLe (listPending fs) ∧
    List.Perm (listPending fs) (fsNames fs) ∧
    sortNames listing = listPending fs ∧
    (process_queue cfg net fs).2 = listPending fs :=
  ⟨sortNames_sorted _, listPending_perm fs, sortNames_eq_of_perm h,
    process_queue_trace cfg net fs⟩

theorem claim8_witness :
    sortNames ["pc_metrics_9.json", "esp32_metrics_5.json"] = listPending fsC4 ∧
    (process_queue cfgEx netOk fsC4).2 = listPending fsC4 := by
  have h := claim8_deterministic_order cfgEx netOk fsC4
    ["pc_metrics_9.json", "esp32_metrics_5.json"] (by decide)
  exact ⟨h.2.2.1, h.2.2.2⟩

/-- C9: the sensor collector enqueues exactly when the received message,
stripped, begins with `Temperature: <digits>.<digits> C` (`TempPattern`,
decimal point required): the source regex accepts precisely those messages;
on a match the handler writes the esp record, otherwise the queue is
untouched (the message is only logged); and the integer reading
`"Temperature: 25 C"` is rejected. -/
theorem claim9_esp_enqueue_iff :
    (∀ cs : List Char, (matchTempChars cs).isSome = true ↔ TempPattern cs) ∧
    (∀ (fs : FS) (msg : String) (t : Nat),
      ESP32Metrics.handle fs msg t =
        match matchTempChars (pyStrip msg).data with
        | some d => fsWrite fs (ESP32Metrics.fileName t)
            (.record (ESP32Metrics.mkRecord (String.mk d) t))
        | none => fs) ∧
    matchTempChars (pyStrip "Temperature: 25 C").data = none := by
  refine ⟨matchTempChars_isSome_iff, ?_, by decide⟩
  intro fs msg t
  unfold ESP32Metrics.handle
  cases matchTempChars (pyStrip msg).data with
  | none => rfl
  | some d => exact esp_save_eq fs (String.mk d) t

/-- C10: the uploader never creates or modifies queue entries: a cycle's
final directory names form a sublist of the initial ones, and every name
either keeps exactly its previous content or is gone — and it is gone only
when its delivery was confirmed with HTTP 200/201. -/
theorem claim10_uploader_only_deletes (cfg : Config) (net : Net) (fs : FS)
    (h : (fsNames fs).Nodup) :
    List.Sublist (fsNames (process_queue cfg net fs).1) (fsNames fs) ∧
    ∀ n : String,
      fsRead (process_queue cfg net fs).1 n = fsRead fs n ∨
      (fsRead (process_queue cfg net fs).1 n = none ∧ deliveredOk cfg net fs n) := by
  refine ⟨processEntries_names_sublist cfg net _ fs, ?_⟩
  intro n
  by_cases hd : deliveredB cfg net fs n = true
  · right
    refine ⟨?_, deliveredB_eq_true_iff.mp hd⟩
    rw [process_queue_fsRead cfg net h n, if_pos hd]
  · left
    rw [process_queue_fsRead cfg net h n, if_neg hd]

theorem claim10_witness :
    List.Sublist (fsNames (process_queue cfgEx netDown fsC4).1) (fsNames fsC4) ∧
    fsRead (process_queue cfgEx netDown fsC4).1 "pc_metrics_9.json" =
      fsRead fsC4 "pc_metrics_9.json" := by
  have h := claim10_uploader_only_deletes cfgEx netDown fsC4 (by decide)
  refine ⟨h.1, ?_⟩
  rcases h.2 "pc_metrics_9.json" with h1 | h1
  · exact h1
  · obtain ⟨o, m, c, -, -, hn, -⟩ := h1.2
    exact absurd hn (by simp [netDown])
